import Mathlib

/-!
Shallow embedding of the crateful registry cache, verified against its
natural-language specification.  Sources embedded here:

* `src/digest.rs` — `Sha256`
* `src/registry/index/package/mod.rs` — `Crate`, `CrateKey`, `Crate::prefix`,
  `Package::from_str`
* `src/registry/index/configuration/mod.rs` — `Configuration`,
  `Configuration::locate`
* `src/registry/index/mod.rs` — `Change`, `ChangeKind`,
  `changes_from_package_trees` (the `Delta::Modified` arm), the `config.json`
  delta filter in `Index::update`
* `src/registry/cache.rs` — `prune_directories`, `Cache::locate_crate`,
  `Cache::refresh`, `Cache::update`

Strings are embedded as Lean `String`/`List Char` (Rust `char` iteration is
codepoint-wise, as is Lean's `String.data`).  Asynchronous, concurrent code is
embedded sequentially: the reconciler applies its per-crate actions via a
bounded pool whose first fatal error aborts the operation, which the sequential
fold models faithfully for everything the claims state (the spec itself says
change order is not observable).  External effects (HTTP downloads, `git2`,
`serde_json`, the file system) are represented by outcome oracles or by an
explicit file-system state.
-/

namespace Crateful

/-- Embeds `Sha256` from `src/digest.rs`: a fixed 32-byte digest.  The byte
array is modelled as a list of naturals; only equality of digests is ever
inspected by the embedded code. -/
structure Sha256 where
  bytes : List Nat
deriving DecidableEq

/-- Embeds `Crate` from `src/registry/index/package/mod.rs`. -/
structure Crate where
  name : String
  version : String
  checksum : Sha256
deriving DecidableEq

/-- Embeds `CrateKey` from `src/registry/index/package/mod.rs`. -/
structure CrateKey where
  name : String
  version : String
deriving DecidableEq

/-- Embeds `Crate::key`. -/
def Crate.key (c : Crate) : CrateKey :=
  { name := c.name, version := c.version }

/-- Embeds `Crate::prefix` (`src/registry/index/package/mod.rs`, lines 63-76).
The Rust function takes the first four characters of the name and matches on
how many there are; the zero-character case falls into an `unreachable!` panic,
modelled here as `none`. -/
def Crate.prefixOf (c : Crate) : Option String :=
  match c.name.data.take 4 with
  | [] => none
  | [_] => some "1"
  | [_, _] => some "2"
  | [c0, _, _] => some (String.mk ['3', '/', c0])
  | c0 :: c1 :: c2 :: c3 :: _ => some (String.mk [c0, c1, '/', c2, c3])

/-- Embeds Rust `str::replace`: replace every non-overlapping occurrence of
`pat`, scanning left to right.  The recursion is driven by explicit fuel so
that the definition is structural (the caller supplies fuel at least the
length of the scanned list, which is always enough because a match consumes at
least one character when `pat` is non-empty; markers are never empty). -/
def replaceFuel (pat rep : List Char) : Nat → List Char → List Char
  | _, [] => []
  | 0, l => l
  | fuel + 1, c :: rest =>
    if pat ≠ [] ∧ pat.isPrefixOf (c :: rest) then
      rep ++ replaceFuel pat rep fuel (List.drop pat.length (c :: rest))
    else
      c :: replaceFuel pat rep fuel rest

/-- Entry point for the embedded `str::replace`. -/
def replaceAll (pat rep l : List Char) : List Char :=
  replaceFuel pat rep l.length l

/-- Decides whether `pat` occurs as a contiguous sublist of `l`. -/
def occursIn (pat : List Char) : List Char → Bool
  | [] => pat.isPrefixOf []
  | c :: rest => pat.isPrefixOf (c :: rest) || occursIn pat rest

/-- Embeds `Configuration` from `src/registry/index/configuration/mod.rs`
(the `dl` template string). -/
structure Configuration where
  template : String
deriving DecidableEq

/-- Hex digit for a value below 16, lowercase, as produced by `hex::encode`. -/
def hexDigit (n : Nat) : Char :=
  if n < 10 then Char.ofNat (48 + n) else Char.ofNat (87 + n)

/-- Lowercase hex encoding of one byte. -/
def hexByte (n : Nat) : List Char :=
  [hexDigit (n / 16 % 16), hexDigit (n % 16)]

/-- Embeds `hex::encode` applied to a digest, as used by
`Configuration::locate`. -/
def hexEncode (s : Sha256) : List Char :=
  (s.bytes.map hexByte).flatten

/-- Embeds the string-building part of `Configuration::locate`
(`src/registry/index/configuration/mod.rs`, lines 69-99): five successive
`str::replace` calls over the template, then, if the result still equals the
template, the `/<name>/<version>/download` suffix is appended.  The final
`Url::parse` is not embedded: the claims about `locate` are settled at the
level of the string handed to the parser (equal strings parse identically).
A crate with an empty name makes `Crate::prefix` panic, modelled as `none`. -/
def locateChars (cfg : Configuration) (c : Crate) : Option (List Char) :=
  (c.prefixOf).map fun pre =>
    let templated :=
      replaceAll "\x7bsha256-checksum\x7d".data (hexEncode c.checksum)
        (replaceAll "\x7blowerprefix\x7d".data pre.toLower.data
          (replaceAll "\x7bprefix\x7d".data pre.data
            (replaceAll "\x7bversion\x7d".data c.version.data
              (replaceAll "\x7bcrate\x7d".data c.name.data cfg.template.data))))
    if templated = cfg.template.data then
      cfg.template.data ++ ("/".data ++ c.name.data)
        ++ ("/".data ++ c.version.data) ++ "/download".data
    else templated

/-- Substitution of a list of marker/value pairs in a single simultaneous
left-to-right pass: wherever a marker occurs in the input, its value is
emitted and scanning resumes after the marker, so marker text contained in a
substituted value is never itself substituted.  This is the spec reading of
"substituting, in one pass, each of the markers that appear literally in the
template" (spec §4.2); it exists to be compared against `locateChars`. -/
def onePassFuel (subs : List (List Char × List Char)) :
    Nat → List Char → List Char
  | _, [] => []
  | 0, l => l
  | fuel + 1, c :: rest =>
    match subs.find? (fun p => !p.1.isEmpty && p.1.isPrefixOf (c :: rest)) with
    | some p => p.2 ++ onePassFuel subs fuel (List.drop p.1.length (c :: rest))
    | none => c :: onePassFuel subs fuel rest

/-- Entry point for the one-pass substitution. -/
def onePassAll (subs : List (List Char × List Char)) (l : List Char) :
    List Char :=
  onePassFuel subs l.length l

/-- Spec-side counterpart of `locateChars` whose marker substitution is done
in one simultaneous pass (spec §4.2), all else equal. -/
def locateOnePassChars (cfg : Configuration) (c : Crate) : Option (List Char) :=
  (c.prefixOf).map fun pre =>
    let templated :=
      onePassAll
        [("\x7bcrate\x7d".data, c.name.data), ("\x7bversion\x7d".data, c.version.data),
         ("\x7bprefix\x7d".data, pre.data), ("\x7blowerprefix\x7d".data, pre.toLower.data),
         ("\x7bsha256-checksum\x7d".data, hexEncode c.checksum)]
        cfg.template.data
    if templated = cfg.template.data then
      cfg.template.data ++ ("/".data ++ c.name.data)
        ++ ("/".data ++ c.version.data) ++ "/download".data
    else templated

/-- Strips one trailing carriage return, as Rust `str::lines` does for lines
terminated by a carriage return plus line feed. -/
def stripCr (l : List Char) : List Char :=
  if l.getLast? = some '\r' then l.dropLast else l

/-- Worker for `rustLines`: accumulates the current line in reverse.  A line
feed emits the accumulated line (with a trailing carriage return stripped);
input ending right after a line feed produces no further line, so the final
line terminator is optional. -/
def linesAux : List Char → List Char → List (List Char)
  | acc, [] => [acc.reverse]
  | acc, c :: rest =>
    if c = '\n' then
      stripCr acc.reverse :: (if rest.isEmpty then [] else linesAux [] rest)
    else linesAux (c :: acc) rest

/-- Embeds Rust `str::lines`, as used by `Package::from_str`
(`src/registry/index/package/mod.rs`, lines 134-147): splits at line feeds,
strips a carriage return preceding a line feed, yields nothing for empty
input, and treats the final line terminator as optional. -/
def rustLines (l : List Char) : List (List Char) :=
  if l.isEmpty then [] else linesAux [] l

/-- Embeds Rust `str::trim`: removes leading and trailing whitespace. -/
def trimChars (l : List Char) : List Char :=
  ((l.dropWhile Char.isWhitespace).reverse.dropWhile Char.isWhitespace).reverse

/-- Embeds the short-circuiting `collect::<Result<_, _>>` over the parsed
lines of a package file: the first line that fails to parse fails the whole
parse. -/
def mapMOpt (f : α → Option β) : List α → Option (List β)
  | [] => some []
  | a :: rest =>
    match f a with
    | none => none
    | some b => (mapMOpt f rest).map (b :: ·)

/-- Suffix of `l` following the first occurrence of `pat`, if any. -/
def extractAfter (pat : List Char) : List Char → Option (List Char)
  | [] => if pat.isEmpty then some [] else none
  | c :: rest =>
    if pat.isPrefixOf (c :: rest) then some (List.drop pat.length (c :: rest))
    else extractAfter pat rest

/-- Characters before the next double quote, if one exists. -/
def takeUntilQuote : List Char → Option (List Char)
  | [] => none
  | c :: rest =>
    if c = '"' then some [] else (takeUntilQuote rest).map (c :: ·)

/-- Value of a hexadecimal digit, lowercase letters only. -/
def hexDigitVal (c : Char) : Option Nat :=
  if '0' ≤ c ∧ c ≤ '9' then some (c.toNat - 48)
  else if 'a' ≤ c ∧ c ≤ 'f' then some (c.toNat - 87)
  else none

/-- Decodes a lowercase hex string into bytes; fails on odd length or on a
character that is not a hex digit. -/
def hexDecode : List Char → Option (List Nat)
  | [] => some []
  | [_] => none
  | c₁ :: c₂ :: rest =>
    match hexDigitVal c₁, hexDigitVal c₂, hexDecode rest with
    | some h, some lo, some bs => some ((h * 16 + lo) :: bs)
    | _, _, _ => none

/-- String value of the field `key` in a flat JSON object, looked up by the
literal `"key":"` pattern. -/
def fieldValue (key s : List Char) : Option (List Char) :=
  (extractAfter ('"' :: key ++ ['"', ':', '"']) s).bind takeUntilQuote

/-- Modelled from the spec: the JSON deserialisation behind `Crate::from_str`
(`serde_json` is an external collaborator, not part of the sources; spec §4.1:
"`parse(line) -> Crate` — fails with `InvalidCrateRecord` on malformed JSON or
missing required fields", and §3: "The deserializer ignores fields beyond
`name`, `vers`, `cksum`"; the checksum is "serialized as 64-character
lowercase hex", §3).  The model reads a braced JSON object and extracts the
three required fields; any input that is not such an object — in particular
the empty string, which contains no JSON value at all — is rejected. -/
def crateFromStrModel (s : List Char) : Option Crate :=
  if s.head? = some '{' ∧ s.getLast? = some '}' then
    match fieldValue "name".data s, fieldValue "vers".data s,
        fieldValue "cksum".data s with
    | some n, some v, some ck =>
      match hexDecode ck with
      | some bytes =>
        if bytes.length = 32 then some ⟨String.mk n, String.mk v, ⟨bytes⟩⟩
        else none
      | none => none
    | _, _, _ => none
  else none

/-- Embeds `Package::from_str` (`src/registry/index/package/mod.rs`, lines
134-147): split the input into lines, trim each line, parse each trimmed line
as a crate, and fail on the first line that does not parse.  The crate set is
modelled as the list of parsed lines. -/
def packageFromChars (l : List Char) : Option (List Crate) :=
  mapMOpt (fun line => crateFromStrModel (trimChars line)) (rustLines l)

/-- Embeds `ChangeKind` from `src/registry/index/mod.rs`. -/
inductive ChangeKind
  | Added
  | Removed
  | Modified
deriving DecidableEq

/-- Embeds `Change` from `src/registry/index/mod.rs`; the field `on` keeps
its source name, quoted because `on` is a Lean keyword. -/
structure Change where
  «on» : Crate
  kind : ChangeKind
deriving DecidableEq

/-- Lookup half of `AHashMap::remove` over the map built from the new
package's crates, keyed by `Crate::key`; the map is modelled as a key-unique
list. -/
def findKey (k : CrateKey) (l : List Crate) : Option Crate :=
  l.find? (fun c => decide (c.key = k))

/-- Removal half of `AHashMap::remove`: drops the first entry carrying the
key (the only one, when keys are unique). -/
def eraseKey (k : CrateKey) : List Crate → List Crate
  | [] => []
  | c :: rest => if c.key = k then rest else c :: eraseKey k rest

/-- Embeds the `Delta::Modified` arm of `changes_from_package_trees`
(`src/registry/index/mod.rs`, lines 259-316): iterate the old package's
crates; a key found in the new map is removed from the map and yields
`Modified` (with the new crate) exactly when the checksums differ; a key
absent from the new map yields `Removed` (with the old crate); every entry
remaining in the new map afterwards yields `Added`. -/
def changesFromModified : List Crate → List Crate → List Change
  | [], newRemaining => newRemaining.map (fun c => ⟨c, .Added⟩)
  | b :: olds, newRemaining =>
    match findKey b.key newRemaining with
    | some a =>
      if b.checksum ≠ a.checksum then
        ⟨a, .Modified⟩ :: changesFromModified olds (eraseKey b.key newRemaining)
      else
        changesFromModified olds (eraseKey b.key newRemaining)
    | none => ⟨b, .Removed⟩ :: changesFromModified olds newRemaining

/-- Change set for a modified package file as the claim states it: one
`Modified` with the new crate per key common to both packages whose checksums
differ, one `Removed` with the old crate per key only in the old package, one
`Added` with the new crate per key only in the new package, and nothing for a
common key with equal checksums. -/
def modifiedSpec (old new : List Crate) (ch : Change) : Prop :=
  (ch.kind = .Modified ∧ ch.«on» ∈ new ∧
     ∃ b ∈ old, b.key = ch.«on».key ∧ b.checksum ≠ ch.«on».checksum) ∨
  (ch.kind = .Removed ∧ ch.«on» ∈ old ∧ ∀ a ∈ new, a.key ≠ ch.«on».key) ∨
  (ch.kind = .Added ∧ ch.«on» ∈ new ∧ ∀ b ∈ old, b.key ≠ ch.«on».key)

/-- Old and new file paths of one tree-to-tree delta entry, as inspected by
the filter in `Index::update`.  Paths are component lists; the paths reported
by the diff are relative to the repository root. -/
structure DeltaPaths where
  oldPath : Option (List String)
  newPath : Option (List String)
deriving DecidableEq

/-- Embeds `Index::CONFIGURATION_FILENAME`. -/
def configurationFilename : String := "config.json"

/-- Embeds the `exclude` path built in `Index::update`
(`src/registry/index/mod.rs`, lines 558-561): the repository working
directory joined with `config.json` — an absolute path. -/
def excludePath (workdir : List String) : List String :=
  workdir ++ [configurationFilename]

/-- Embeds the delta filter in `Index::update` (lines 571-578): a delta is
kept when its path — the old file's path, or the new file's when the old has
none — differs from `exclude`; a delta with no path at all is kept. -/
def deltaKept (workdir : List String) (d : DeltaPaths) : Bool :=
  match d.oldPath with
  | some p => decide (p ≠ excludePath workdir)
  | none =>
    match d.newPath with
    | some p => decide (p ≠ excludePath workdir)
    | none => true

/-- State of the file system as `prune_directories` observes it: the
directories and files that exist, as component-path lists.  `read_dir` lists
a directory's direct children. -/
structure Fs where
  dirs : List (List String)
  files : List (List String)
deriving DecidableEq

/-- Direct containment: `p` is an entry of the directory `d`. -/
def isDirectChild (d p : List String) : Bool :=
  decide (p.length = d.length + 1) && d.isPrefixOf p

/-- Embeds the emptiness probe
`fs::read_dir(from).next_entry().is_none()`: the directory has no entry. -/
def Fs.isEmptyDir (fs : Fs) (d : List String) : Bool :=
  fs.dirs.all (fun p => !isDirectChild d p) &&
    fs.files.all (fun p => !isDirectChild d p)

/-- Embeds `fs::remove_dir`. -/
def Fs.removeDir (fs : Fs) (d : List String) : Fs :=
  { fs with dirs := fs.dirs.filter (fun p => decide (p ≠ d)) }

/-- Embeds `fs::remove_file`. -/
def Fs.removeFile (fs : Fs) (f : List String) : Fs :=
  { fs with files := fs.files.filter (fun p => decide (p ≠ f)) }

/-- Creation of a downloaded artifact file (the downloader's rename of the
temporary file into place). -/
def Fs.addFile (fs : Fs) (f : List String) : Fs :=
  { fs with files := f :: fs.files.filter (fun p => decide (p ≠ f)) }

/-- I/O error kinds the embedded code distinguishes: `NotFound` against
everything else. -/
inductive IoErrorKind
  | notFound
  | other
deriving DecidableEq

/-- Embeds `PruneDirectoriesError` from `src/registry/cache.rs`. -/
inductive PruneDirectoriesError
  | Io (k : IoErrorKind)
  | TraversalIsImpossible
deriving DecidableEq

/-- Loop of `prune_directories` (`src/registry/cache.rs`, lines 67-77):
while the cursor differs from `stop`, read the directory (`NotFound` when it
does not exist), remove it when empty, and step to the parent.  Fuel makes
the recursion structural; the entry point supplies more fuel than the cursor
has components, which is enough because each step drops one component. -/
def pruneGoFuel (stop : List String) :
    Nat → List String → Fs → Except PruneDirectoriesError Fs
  | 0, _, fs => .ok fs
  | fuel + 1, start, fs =>
    if start = stop then .ok fs
    else if start ∈ fs.dirs then
      pruneGoFuel stop fuel start.dropLast
        (if fs.isEmptyDir start then fs.removeDir start else fs)
    else .error (.Io .notFound)

/-- Embeds `prune_directories` (`src/registry/cache.rs`, lines 62-80):
refuse with `TraversalIsImpossible` unless `start` begins with `stop`, then
walk upwards removing empty directories; `stop` itself is never removed. -/
def prune_directories (fs : Fs) (start stop : List String) :
    Except PruneDirectoriesError Fs :=
  if stop.isPrefixOf start then pruneGoFuel stop (start.length + 1) start fs
  else .error .TraversalIsImpossible

/-- Concrete file system for the C8 witness: an empty artifact chain
`c/crates/a/1` under the cache root `c`. -/
def pruneWitnessFs : Fs :=
  ⟨[["c"], ["c", "crates"], ["c", "crates", "a"], ["c", "crates", "a", "1"]],
    []⟩

/-- Result of pruning the witness chain: only the cache root remains. -/
def pruneWitnessFsAfter : Fs := ⟨[["c"]], []⟩

/-- Modelled from the spec: `download::Error` (src/download.rs is not among
the provided sources; the downloader is spec §4.5).  Its kinds are
`ChecksumMismatch{url}` for a digest mismatch, `Http{status,url}` for a
non-success HTTP status, and a distinct `Transport` variant for any
lower-level I/O or transport error (§4.5, §7). -/
inductive DownloadError
  | ChecksumMismatch (url : String)
  | Http (status : Nat) (url : String)
  | Transport
deriving DecidableEq

/-- Embeds the recoverability match written identically in `Cache::refresh`
and in the `Added` and `Modified` arms of `Cache::update`
(`src/registry/cache.rs`, lines 380-399, 462-477 and 524-539):
`ChecksumMismatch` and `Http` are logged with a warning and skipped, every
other variant is wrapped in a `CrateDownloadError` and returned. -/
def DownloadError.isRecoverable : DownloadError → Bool
  | .ChecksumMismatch _ => true
  | .Http _ _ => true
  | _ => false

/-- Embeds `TemplateUrlError` from
`src/registry/index/configuration/mod.rs` (the `url::ParseError` payload is
external and not modelled). -/
structure TemplateUrlError where
  crate_ : Crate
deriving DecidableEq

/-- Embeds `CrateDownloadError` from `src/registry/cache.rs`. -/
structure CrateDownloadError where
  source : DownloadError
  name : String
  version : String
deriving DecidableEq

/-- Embeds `RefreshCacheError` from `src/registry/cache.rs`; the payloads of
the pre-loop stages are not modelled. -/
inductive RefreshCacheError
  | CrateDownload (e : CrateDownloadError)
  | GetConfiguration
  | GetPackages
  | MalformedDownloadTemplate (e : TemplateUrlError)
deriving DecidableEq

/-- Embeds `CommitUpdateError` from `src/registry/index/mod.rs` (a wrapped
`git2` error). -/
inductive CommitUpdateError
  | Git
deriving DecidableEq

/-- Embeds `UpdateError` from `src/registry/cache.rs`; payloads of the
staging errors are not modelled. -/
inductive UpdateError
  | CommitUpdate (e : CommitUpdateError)
  | CrateDownload (e : CrateDownloadError)
  | GetConfiguration
  | GetUpdate
  | Io (k : IoErrorKind)
  | MalformedDownloadTemplate (e : TemplateUrlError)
  | PruneDirectories (e : PruneDirectoriesError)
deriving DecidableEq

/-- Embeds `Cache::locate_crate`:
`<cache>/crates/<name>/<version>/download`. -/
def locate_crate (cachePath : List String) (c : Crate) : List String :=
  cachePath ++ ["crates", c.name, c.version, "download"]

/-- Outcomes of the external effects one `Cache::refresh` or `Cache::update`
run observes, given per crate: whether `Configuration::locate` succeeds
(`Url::parse` is external), the result of `Download::run` (`none` is
success), the result of `fs::metadata` on the crate's artifact path (`none`
means the file exists), and whether the `git2` branch-tip move inside
`PendingUpdate::commit` succeeds. -/
structure EffectEnv where
  locateOk : Crate → Bool
  runResult : Crate → Option DownloadError
  statResult : Crate → Option IoErrorKind
  commitOk : Bool

/-- Embeds the per-crate closure of `Cache::refresh`
(`src/registry/cache.rs`, lines 370-409): build the download (template
expansion may fail), run it, log and skip recoverable failures, and abort
with a `CrateDownloadError` carrying the crate's name and version
otherwise. -/
def refreshCrate (env : EffectEnv) (c : Crate) : Option RefreshCacheError :=
  if env.locateOk c then
    match env.runResult c with
    | none => none
    | some e =>
      if e.isRecoverable then none
      else some (.CrateDownload ⟨e, c.name, c.version⟩)
  else some (.MalformedDownloadTemplate ⟨c⟩)

/-- Embeds the `try_for_each_concurrent` over all crates in
`Cache::refresh`: the first fatal per-crate error aborts the whole
operation. -/
def refreshCrates (env : EffectEnv) : List Crate → Option RefreshCacheError
  | [] => none
  | c :: rest =>
    match refreshCrate env c with
    | some e => some e
    | none => refreshCrates env rest

/-- Embeds the download block shared by the `Added` and `Modified` arms of
`Cache::update` (`src/registry/cache.rs`, lines 456-477 and 519-539).  On
success the artifact file exists afterwards; a recoverable failure is logged
and skipped, leaving the state unchanged; any other failure aborts with a
`CrateDownloadError` carrying the crate's name and version. -/
def downloadStep (env : EffectEnv) (cachePath : List String) (fs : Fs)
    (c : Crate) : Fs × Option UpdateError :=
  if env.locateOk c then
    match env.runResult c with
    | none => (fs.addFile (locate_crate cachePath c), none)
    | some e =>
      if e.isRecoverable then (fs, none)
      else (fs, some (.CrateDownload ⟨e, c.name, c.version⟩))
  else (fs, some (.MalformedDownloadTemplate ⟨c⟩))

/-- Embeds the artifact-removal step shared by the `Removed` and `Modified`
arms of `Cache::update` (`src/registry/cache.rs`, lines 488-495 and
510-517): probe with `fs::metadata`; when the file exists remove it (the
removal of an existing file succeeds in a single-process run, and its errors
would propagate like the probe's); a `NotFound` probe error means the
artifact is already absent and is treated as success; any other probe error
fails the operation as `Io`. -/
def removeArtifact (env : EffectEnv) (cachePath : List String) (fs : Fs)
    (c : Crate) : Fs × Option UpdateError :=
  match env.statResult c with
  | none => (fs.removeFile (locate_crate cachePath c), none)
  | some k =>
    if k = IoErrorKind.notFound then (fs, none) else (fs, some (.Io k))

/-- Embeds the per-change body of `Cache::update`
(`src/registry/cache.rs`, lines 455-543): `Added` downloads; `Removed`
removes the artifact then prunes empty directories upward from the
artifact's parent to the cache root; `Modified` removes the artifact then
downloads. -/
def applyChange (env : EffectEnv) (cachePath : List String) (fs : Fs)
    (ch : Change) : Fs × Option UpdateError :=
  match ch.kind with
  | .Added => downloadStep env cachePath fs ch.«on»
  | .Removed =>
    match removeArtifact env cachePath fs ch.«on» with
    | (fs₁, some e) => (fs₁, some e)
    | (fs₁, none) =>
      match prune_directories fs₁ (locate_crate cachePath ch.«on»).dropLast
          cachePath with
      | .ok fs₂ => (fs₂, none)
      | .error e => (fs₁, some (.PruneDirectories e))
  | .Modified =>
    match removeArtifact env cachePath fs ch.«on» with
    | (fs₁, some e) => (fs₁, some e)
    | (fs₁, none) => downloadStep env cachePath fs₁ ch.«on»

/-- Embeds the change loop of `Cache::update`: the first fatal error aborts
the operation, leaving on disk whatever the changes applied so far
produced — there is no rollback. -/
def applyChanges (env : EffectEnv) (cachePath : List String) :
    List Change → Fs → Fs × Option UpdateError
  | [], fs => (fs, none)
  | ch :: rest, fs =>
    match applyChange env cachePath fs ch with
    | (fs', none) => applyChanges env cachePath rest fs'
    | (fs', some e) => (fs', some e)

/-- Embeds `Cache::update` (`src/registry/cache.rs`, lines 431-559) after
staging, together with `PendingUpdate::commit`
(`src/registry/index/mod.rs`, lines 360-379): all changes are applied first;
only when every one of them succeeded is `commit` called, moving the local
branch tip from `head` to the staged `target`; any failure returns that
error with the branch tip left at `head`.  The triple is (returned error if
any, final branch tip, final file-system state). -/
def updateRun (env : EffectEnv) (cachePath : List String)
    (changes : List Change) (head target : Nat) (fs : Fs) :
    Option UpdateError × Nat × Fs :=
  match applyChanges env cachePath changes fs with
  | (fs', none) =>
    if env.commitOk then (none, target, fs')
    else (some (.CommitUpdate .Git), head, fs')
  | (fs', some e) => (some e, head, fs')

/-- Environment for the C1 witness: the one download fails with a transport
error. -/
def updateWitnessEnv : EffectEnv :=
  ⟨fun _ => true, fun _ => some .Transport, fun _ => some .notFound, true⟩

/-- Environment for the C4 witness: downloads fail with HTTP status 403. -/
def refreshWitnessEnv : EffectEnv :=
  ⟨fun _ => true, fun _ => some (.Http 403 "u"), fun _ => none, true⟩

/-- Environment for the C7 witness: the artifact is already absent. -/
def absentWitnessEnv : EffectEnv :=
  ⟨fun _ => true, fun _ => none, fun _ => some .notFound, true⟩

theorem isPrefixOf_eq_true_iff {α : Type} [DecidableEq α] {l₁ l₂ : List α} :
    l₁.isPrefixOf l₂ = true ↔ l₁ <+: l₂ := by
  exact List.isPrefixOf_iff_prefix

theorem dropLast_prefix_self {α : Type} (l : List α) : l.dropLast <+: l := by
  exact List.dropLast_prefix l

theorem replaceFuel_of_not_occurs {pat rep : List Char} :
    ∀ (l : List Char) (fuel : Nat), occursIn pat l = false →
      replaceFuel pat rep fuel l = l := by
  intro l
  induction l with
  | nil => intro fuel _; cases fuel <;> rfl
  | cons c rest ih =>
    intro fuel h
    simp only [occursIn, Bool.or_eq_false_iff] at h
    cases fuel with
    | zero => rfl
    | succ fuel =>
      simp only [replaceFuel]
      rw [if_neg, ih fuel h.2]
      intro hc
      rw [hc.2] at h
      simp at h

theorem replaceAll_of_not_occurs {pat rep l : List Char}
    (h : occursIn pat l = false) : replaceAll pat rep l = l :=
  replaceFuel_of_not_occurs l l.length h

theorem data_ne_nil_of_ne_empty {s : String} (h : s ≠ "") : s.data ≠ [] :=
  fun hd => h (String.ext (hd.trans rfl))

theorem prefixOf_of_ne_empty (c : Crate) (h : c.name ≠ "") :
    ∃ p, c.prefixOf = some p := by
  rcases hd : c.name.data with _ | ⟨c0, _ | ⟨c1, _ | ⟨c2, _ | ⟨c3, rest⟩⟩⟩⟩
  · exact absurd hd (data_ne_nil_of_ne_empty h)
  · have ht : c.name.data.take 4 = [c0] := by rw [hd]; rfl
    exact ⟨"1", by unfold Crate.prefixOf; rw [ht]⟩
  · have ht : c.name.data.take 4 = [c0, c1] := by rw [hd]; rfl
    exact ⟨"2", by unfold Crate.prefixOf; rw [ht]⟩
  · have ht : c.name.data.take 4 = [c0, c1, c2] := by rw [hd]; rfl
    exact ⟨String.mk ['3', '/', c0], by unfold Crate.prefixOf; rw [ht]⟩
  · have ht : c.name.data.take 4 = [c0, c1, c2, c3] := by rw [hd]; rfl
    exact ⟨String.mk [c0, c1, '/', c2, c3], by unfold Crate.prefixOf; rw [ht]⟩

/-- C6: `Crate::prefix` is total for every crate whose name is non-empty and
matches the table of §4.1: `"1"` for one character, `"2"` for two,
`"3/<c0>"` for three, and `"<c0c1>/<c2c3>"` for four or more, the characters
taken codepoint-wise from the start of the name with case preserved. -/
theorem prefix_total_and_matches_table (c : Crate) (h : c.name ≠ "") :
    ∃ p, c.prefixOf = some p ∧
      ((∃ c0, c.name.data = [c0] ∧ p = "1") ∨
       (∃ c0 c1, c.name.data = [c0, c1] ∧ p = "2") ∨
       (∃ c0 c1 c2, c.name.data = [c0, c1, c2] ∧ p = String.mk ['3', '/', c0]) ∨
       (∃ c0 c1 c2 c3 rest, c.name.data = c0 :: c1 :: c2 :: c3 :: rest ∧
          p = String.mk [c0, c1, '/', c2, c3])) := by
  rcases hd : c.name.data with _ | ⟨c0, _ | ⟨c1, _ | ⟨c2, _ | ⟨c3, rest⟩⟩⟩⟩
  · exact absurd hd (data_ne_nil_of_ne_empty h)
  · have ht : c.name.data.take 4 = [c0] := by rw [hd]; rfl
    exact ⟨"1", by unfold Crate.prefixOf; rw [ht], Or.inl ⟨c0, rfl, rfl⟩⟩
  · have ht : c.name.data.take 4 = [c0, c1] := by rw [hd]; rfl
    exact ⟨"2", by unfold Crate.prefixOf; rw [ht],
      Or.inr (Or.inl ⟨c0, c1, rfl, rfl⟩)⟩
  · have ht : c.name.data.take 4 = [c0, c1, c2] := by rw [hd]; rfl
    exact ⟨String.mk ['3', '/', c0], by unfold Crate.prefixOf; rw [ht],
      Or.inr (Or.inr (Or.inl ⟨c0, c1, c2, rfl, rfl⟩))⟩
  · have ht : c.name.data.take 4 = [c0, c1, c2, c3] := by rw [hd]; rfl
    exact ⟨String.mk [c0, c1, '/', c2, c3], by unfold Crate.prefixOf; rw [ht],
      Or.inr (Or.inr (Or.inr ⟨c0, c1, c2, c3, rest, rfl, rfl⟩))⟩

/-- Witness for C6 at the crate name `"example"` (the repository's own test
expects the shard `"ex/am"`). -/
theorem prefix_total_and_matches_table_witness :
    ∃ p, (Crate.mk "example" "1.0.0" ⟨[]⟩).prefixOf = some p ∧
      ((∃ c0, (Crate.mk "example" "1.0.0" ⟨[]⟩).name.data = [c0] ∧ p = "1") ∨
       (∃ c0 c1, (Crate.mk "example" "1.0.0" ⟨[]⟩).name.data = [c0, c1] ∧
          p = "2") ∨
       (∃ c0 c1 c2, (Crate.mk "example" "1.0.0" ⟨[]⟩).name.data = [c0, c1, c2] ∧
          p = String.mk ['3', '/', c0]) ∨
       (∃ c0 c1 c2 c3 rest,
          (Crate.mk "example" "1.0.0" ⟨[]⟩).name.data
            = c0 :: c1 :: c2 :: c3 :: rest ∧
          p = String.mk [c0, c1, '/', c2, c3])) :=
  prefix_total_and_matches_table (Crate.mk "example" "1.0.0" ⟨[]⟩) (by decide)

/-- C10: for a crate whose name is empty, `Crate::prefix` reaches the
`unreachable!` branch (no match arm for zero characters), modelled as `none`,
and `Configuration::locate`, which computes the shard first, likewise
produces no URL whatever the template: both operations carry the implicit
precondition that crate names are non-empty. -/
theorem empty_name_prefix_and_locate_panic (cfg : Configuration)
    (v : String) (ck : Sha256) :
    (Crate.mk "" v ck).prefixOf = none ∧
      locateChars cfg (Crate.mk "" v ck) = none :=
  ⟨rfl, rfl⟩

/-- C5 counterexample: substitution is not performed in one simultaneous pass
over the template.  With template `"\x7bcrate\x7d"` and a crate named
`"\x7bversion\x7d"` at version `"1"`, the implementation's successive `replace`
calls rewrite the marker text introduced by the first substitution and yield
`"1"`, while a one-pass substitution yields `"\x7bversion\x7d"`. -/
theorem locate_not_one_pass_counterexample :
    locateChars ⟨"\x7bcrate\x7d"⟩ (Crate.mk "\x7bversion\x7d" "1" ⟨[]⟩)
      = some "1".data ∧
    locateOnePassChars ⟨"\x7bcrate\x7d"⟩ (Crate.mk "\x7bversion\x7d" "1" ⟨[]⟩)
      = some "\x7bversion\x7d".data ∧
    locateChars ⟨"\x7bcrate\x7d"⟩ (Crate.mk "\x7bversion\x7d" "1" ⟨[]⟩)
      ≠ locateOnePassChars ⟨"\x7bcrate\x7d"⟩ (Crate.mk "\x7bversion\x7d" "1" ⟨[]⟩) := by
  refine ⟨by decide, by decide, by decide⟩

/-- C5 (amended): `Configuration::locate` is deterministic, and whenever none
of the five markers occurs in the template the string it hands to the URL
parser is exactly `template + "/" + name + "/" + version + "/download"`;
the marker substitution, however, is five successive whole-string
replacements (crate, version, shard, lowercase shard, checksum, in that
order), not a single simultaneous pass. -/
theorem locate_deterministic_and_default_suffix :
    (∀ (cfg₁ cfg₂ : Configuration) (c₁ c₂ : Crate),
        cfg₁ = cfg₂ → c₁ = c₂ → locateChars cfg₁ c₁ = locateChars cfg₂ c₂) ∧
    (∀ (cfg : Configuration) (c : Crate), c.name ≠ "" →
        occursIn "\x7bcrate\x7d".data cfg.template.data = false →
        occursIn "\x7bversion\x7d".data cfg.template.data = false →
        occursIn "\x7bprefix\x7d".data cfg.template.data = false →
        occursIn "\x7blowerprefix\x7d".data cfg.template.data = false →
        occursIn "\x7bsha256-checksum\x7d".data cfg.template.data = false →
        locateChars cfg c
          = some (cfg.template.data ++ ("/".data ++ c.name.data)
              ++ ("/".data ++ c.version.data) ++ "/download".data)) := by
  constructor
  · intro cfg₁ cfg₂ c₁ c₂ h₁ h₂
    rw [h₁, h₂]
  · intro cfg c hname h₁ h₂ h₃ h₄ h₅
    obtain ⟨p, hp⟩ := prefixOf_of_ne_empty c hname
    simp only [locateChars, hp, Option.map_some']
    rw [replaceAll_of_not_occurs h₁, replaceAll_of_not_occurs h₂,
      replaceAll_of_not_occurs h₃, replaceAll_of_not_occurs h₄,
      replaceAll_of_not_occurs h₅, if_pos rfl]

/-- Witness for C5 (amended) at a marker-free template. -/
theorem locate_default_suffix_witness :
    locateChars ⟨"https://crates.example"⟩ (Crate.mk "serde" "1.0.0" ⟨[]⟩)
      = some ("https://crates.example".data
          ++ ("/".data ++ "serde".data) ++ ("/".data ++ "1.0.0".data)
          ++ "/download".data) :=
  locate_deterministic_and_default_suffix.2 ⟨"https://crates.example"⟩
    (Crate.mk "serde" "1.0.0" ⟨[]⟩) (by decide) (by decide) (by decide)
    (by decide) (by decide) (by decide)

theorem linesAux_all_whitespace :
    ∀ (l acc : List Char), (∀ c ∈ acc, c.isWhitespace = true) →
      (∀ c ∈ l, c.isWhitespace = true) →
      ∃ h t, linesAux acc l = h :: t ∧ ∀ c ∈ h, c.isWhitespace = true := by
  intro l
  induction l with
  | nil =>
    intro acc hacc _
    exact ⟨acc.reverse, [], rfl, fun c hc => hacc c (List.mem_reverse.mp hc)⟩
  | cons c rest ih =>
    intro acc hacc hl
    by_cases hc : c = '\n'
    · refine ⟨stripCr acc.reverse, _, by rw [linesAux, if_pos hc], ?_⟩
      intro x hx
      have hx' : x ∈ acc.reverse := by
        unfold stripCr at hx
        split at hx
        · exact (List.dropLast_sublist _).mem hx
        · exact hx
      exact hacc x (List.mem_reverse.mp hx')
    · have step : linesAux acc (c :: rest) = linesAux (c :: acc) rest := by
        rw [linesAux, if_neg hc]
      have hacc' : ∀ x ∈ c :: acc, x.isWhitespace = true := by
        intro x hx
        rcases List.mem_cons.mp hx with hx | hx
        · exact hx ▸ hl c (List.mem_cons_self c rest)
        · exact hacc x hx
      have hl' : ∀ x ∈ rest, x.isWhitespace = true :=
        fun x hx => hl x (List.mem_cons_of_mem c hx)
      obtain ⟨h, t, heq, hws⟩ := ih (c :: acc) hacc' hl'
      exact ⟨h, t, step.trans heq, hws⟩

theorem trimChars_all_whitespace {l : List Char}
    (h : ∀ c ∈ l, c.isWhitespace = true) : trimChars l = [] := by
  have h₁ : l.dropWhile Char.isWhitespace = [] :=
    List.dropWhile_eq_nil_iff.mpr h
  simp [trimChars, h₁]

/-- C9 counterexample: `Package::from_str` on the single-space input does not
return the empty crate set; the one line it sees trims to the empty string,
which is not valid JSON, so the parse fails. -/
theorem package_from_str_whitespace_counterexample :
    packageFromChars " ".data = none ∧ packageFromChars " ".data ≠ some [] := by
  refine ⟨by decide, by decide⟩

/-- C9 (amended): `Package::from_str` on the empty input returns the empty
crate set, but on a non-empty input consisting only of whitespace it returns
a deserialisation error, because each line — even one that trims to nothing —
must parse as a crate record. -/
theorem package_from_str_empty_and_whitespace :
    packageFromChars [] = some [] ∧
    ∀ (l : List Char), l ≠ [] → (∀ c ∈ l, c.isWhitespace = true) →
      packageFromChars l = none := by
  refine ⟨rfl, ?_⟩
  intro l hne hws
  obtain ⟨h, t, heq, hhws⟩ := linesAux_all_whitespace l [] (by simp) hws
  have hlines : rustLines l = h :: t := by
    rw [rustLines, if_neg (by simpa using hne)]
    exact heq
  rw [packageFromChars, hlines, mapMOpt, trimChars_all_whitespace hhws]
  rfl

/-- Witness for C9 (amended) at a two-space input. -/
theorem package_from_str_empty_and_whitespace_witness :
    packageFromChars "  ".data = none :=
  package_from_str_empty_and_whitespace.2 "  ".data (by decide) (by decide)

theorem findKey_eq_some {k : CrateKey} {a : Crate} {l : List Crate}
    (h : findKey k l = some a) : a ∈ l ∧ a.key = k := by
  rw [findKey] at h
  refine ⟨List.mem_of_find?_eq_some h, ?_⟩
  simpa using List.find?_some h

theorem findKey_eq_none {k : CrateKey} {l : List Crate}
    (h : findKey k l = none) : ∀ a ∈ l, a.key ≠ k := by
  rw [findKey] at h
  intro a ha
  simpa using List.find?_eq_none.mp h a ha

theorem eraseKey_sublist (k : CrateKey) :
    ∀ l : List Crate, List.Sublist (eraseKey k l) l
  | [] => List.Sublist.refl []
  | c :: rest => by
    rw [eraseKey]
    split
    · exact List.sublist_cons_self c rest
    · exact List.Sublist.cons₂ c (eraseKey_sublist k rest)

theorem mem_eraseKey {l : List Crate} (hn : (l.map Crate.key).Nodup)
    {x : Crate} {k : CrateKey} : x ∈ eraseKey k l ↔ x ∈ l ∧ x.key ≠ k := by
  induction l with
  | nil => simp [eraseKey]
  | cons c rest ih =>
    rw [List.map_cons, List.nodup_cons] at hn
    obtain ⟨hc, hrest⟩ := hn
    rw [eraseKey]
    split
    · rename_i hck
      constructor
      · intro hx
        refine ⟨List.mem_cons_of_mem c hx, ?_⟩
        intro hxk
        apply hc
        rw [hck, ← hxk]
        exact List.mem_map_of_mem Crate.key hx
      · rintro ⟨hx, hxk⟩
        rcases List.mem_cons.mp hx with rfl | hx
        · exact absurd hck hxk
        · exact hx
    · rename_i hck
      rw [List.mem_cons, ih hrest, List.mem_cons]
      constructor
      · rintro (rfl | ⟨hx, hxk⟩)
        · exact ⟨Or.inl rfl, hck⟩
        · exact ⟨Or.inr hx, hxk⟩
      · rintro ⟨rfl | hx, hxk⟩
        · exact Or.inl rfl
        · exact Or.inr ⟨hx, hxk⟩

theorem keys_nodup_eraseKey {l : List Crate} (hn : (l.map Crate.key).Nodup)
    (k : CrateKey) : ((eraseKey k l).map Crate.key).Nodup :=
  hn.sublist ((eraseKey_sublist k l).map Crate.key)

theorem key_unique {l : List Crate} (hn : (l.map Crate.key).Nodup)
    {x y : Crate} (hx : x ∈ l) (hy : y ∈ l) (h : x.key = y.key) : x = y :=
  List.inj_on_of_nodup_map hn hx hy h

theorem modifiedSpec_of_erase {b : Crate} {bs new : List Crate} {ch : Change}
    (hnew : (new.map Crate.key).Nodup)
    (hbnot : b.key ∉ bs.map Crate.key)
    (h : modifiedSpec bs (eraseKey b.key new) ch) :
    modifiedSpec (b :: bs) new ch := by
  rcases h with ⟨hk, hon, b', hb', hkey, hcks⟩ | ⟨hk, hon, hnone⟩ |
    ⟨hk, hon, hall⟩
  · exact Or.inl ⟨hk, ((mem_eraseKey hnew).mp hon).1, b',
      List.mem_cons_of_mem b hb', hkey, hcks⟩
  · refine Or.inr (Or.inl ⟨hk, List.mem_cons_of_mem b hon, ?_⟩)
    intro x hx
    by_cases hxb : x.key = b.key
    · rw [hxb]
      intro he
      apply hbnot
      rw [he]
      exact List.mem_map_of_mem Crate.key hon
    · exact hnone x ((mem_eraseKey hnew).mpr ⟨hx, hxb⟩)
  · obtain ⟨hmem, hne⟩ := (mem_eraseKey hnew).mp hon
    refine Or.inr (Or.inr ⟨hk, hmem, ?_⟩)
    intro b' hb'
    rcases List.mem_cons.mp hb' with rfl | hb'
    · exact fun he => hne he.symm
    · exact hall b' hb'

theorem modifiedSpec_to_erase {b a : Crate} {bs new : List Crate} {ch : Change}
    (hnew : (new.map Crate.key).Nodup)
    (hbnot : b.key ∉ bs.map Crate.key)
    (ha : a ∈ new) (hak : a.key = b.key)
    (h : modifiedSpec (b :: bs) new ch) :
    (ch = ⟨a, .Modified⟩ ∧ b.checksum ≠ a.checksum) ∨
      modifiedSpec bs (eraseKey b.key new) ch := by
  rcases h with ⟨hk, hon, b', hb', hkey, hcks⟩ | ⟨hk, hon, hnone⟩ |
    ⟨hk, hon, hall⟩
  · rcases List.mem_cons.mp hb' with rfl | hb'
    · have hoa : ch.«on» = a := key_unique hnew hon ha (by rw [← hkey, hak])
      refine Or.inl ⟨by rw [← hoa, ← hk], ?_⟩
      rw [← hoa]
      exact hcks
    · have hne : ch.«on».key ≠ b.key := fun he =>
        hbnot (by rw [← he, ← hkey]; exact List.mem_map_of_mem Crate.key hb')
      exact Or.inr (Or.inl ⟨hk, (mem_eraseKey hnew).mpr ⟨hon, hne⟩, b', hb',
        hkey, hcks⟩)
  · rcases List.mem_cons.mp hon with heq | hon'
    · exact absurd (by rw [hak, heq]) (hnone a ha)
    · exact Or.inr (Or.inr (Or.inl ⟨hk, hon',
        fun x hx => hnone x ((eraseKey_sublist b.key new).subset hx)⟩))
  · have hne : ch.«on».key ≠ b.key :=
      fun he => hall b (List.mem_cons_self b bs) he.symm
    exact Or.inr (Or.inr (Or.inr ⟨hk, (mem_eraseKey hnew).mpr ⟨hon, hne⟩,
      fun b' hb' => hall b' (List.mem_cons_of_mem b hb')⟩))

theorem mem_changesFromModified (old : List Crate) :
    ∀ new : List Crate, (old.map Crate.key).Nodup →
      (new.map Crate.key).Nodup → ∀ ch : Change,
      (ch ∈ changesFromModified old new ↔ modifiedSpec old new ch) := by
  induction old with
  | nil =>
    intro new _ _ ch
    simp only [changesFromModified, List.mem_map, modifiedSpec]
    constructor
    · rintro ⟨a, ha, rfl⟩
      refine Or.inr (Or.inr ⟨rfl, ha, ?_⟩)
      intro b hb
      exact absurd hb (List.not_mem_nil b)
    · rintro (⟨_, _, b, hb, _⟩ | ⟨_, hon, _⟩ | ⟨hk, hon, _⟩)
      · exact absurd hb (List.not_mem_nil b)
      · exact absurd hon (List.not_mem_nil _)
      · exact ⟨ch.«on», hon, by rw [← hk]⟩
  | cons b bs ih =>
    intro new hold hnew ch
    rw [List.map_cons, List.nodup_cons] at hold
    obtain ⟨hbnot, hbs⟩ := hold
    cases hfind : findKey b.key new with
    | none =>
      have hnone := findKey_eq_none hfind
      have IH := ih new hbs hnew ch
      simp only [changesFromModified, hfind, List.mem_cons]
      constructor
      · rintro (rfl | hmem)
        · exact Or.inr (Or.inl ⟨rfl, List.mem_cons_self b bs,
            fun a ha => hnone a ha⟩)
        · rcases IH.mp hmem with ⟨hk, hon, b', hb', hkey, hcks⟩ |
            ⟨hk, hon, hnone'⟩ | ⟨hk, hon, hall⟩
          · exact Or.inl ⟨hk, hon, b', List.mem_cons_of_mem b hb', hkey, hcks⟩
          · exact Or.inr (Or.inl ⟨hk, List.mem_cons_of_mem b hon, hnone'⟩)
          · refine Or.inr (Or.inr ⟨hk, hon, ?_⟩)
            intro b' hb'
            rcases List.mem_cons.mp hb' with rfl | hb'
            · exact fun he => hnone ch.«on» hon he.symm
            · exact hall b' hb'
      · rintro (⟨hk, hon, b', hb', hkey, hcks⟩ | ⟨hk, hon, hnone'⟩ |
          ⟨hk, hon, hall⟩)
        · rcases List.mem_cons.mp hb' with rfl | hb'
          · exact absurd hkey.symm (hnone ch.«on» hon)
          · exact Or.inr (IH.mpr (Or.inl ⟨hk, hon, b', hb', hkey, hcks⟩))
        · rcases List.mem_cons.mp hon with heq | hon'
          · left
            rw [← heq, ← hk]
          · exact Or.inr (IH.mpr (Or.inr (Or.inl ⟨hk, hon', hnone'⟩)))
        · refine Or.inr (IH.mpr (Or.inr (Or.inr ⟨hk, hon, ?_⟩)))
          exact fun b' hb' => hall b' (List.mem_cons_of_mem b hb')
    | some a =>
      obtain ⟨ha, hak⟩ := findKey_eq_some hfind
      have hnewE := keys_nodup_eraseKey hnew b.key
      have IH := ih (eraseKey b.key new) hbs hnewE ch
      by_cases hck : b.checksum = a.checksum
      · simp only [changesFromModified, hfind]
        rw [if_neg (not_not_intro hck), IH]
        constructor
        · exact modifiedSpec_of_erase hnew hbnot
        · intro h
          rcases modifiedSpec_to_erase hnew hbnot ha hak h with ⟨_, hne⟩ | h'
          · exact absurd hck hne
          · exact h'
      · simp only [changesFromModified, hfind]
        rw [if_pos hck, List.mem_cons, IH]
        constructor
        · rintro (rfl | hmem)
          · exact Or.inl ⟨rfl, ha, b, List.mem_cons_self b bs, hak.symm, hck⟩
          · exact modifiedSpec_of_erase hnew hbnot hmem
        · intro h
          rcases modifiedSpec_to_erase hnew hbnot ha hak h with ⟨heq, _⟩ | h'
          · exact Or.inl heq
          · exact Or.inr h'

theorem keys_nodup_changesFromModified (old : List Crate) :
    ∀ new : List Crate, (old.map Crate.key).Nodup →
      (new.map Crate.key).Nodup →
      ((changesFromModified old new).map (fun ch => ch.«on».key)).Nodup := by
  induction old with
  | nil =>
    intro new _ hnew
    have hcomp : (fun ch : Change => ch.«on».key) ∘
        (fun c : Crate => (⟨c, .Added⟩ : Change)) = Crate.key := rfl
    simpa only [changesFromModified, List.map_map, hcomp] using hnew
  | cons b bs ih =>
    intro new hold hnew
    rw [List.map_cons, List.nodup_cons] at hold
    obtain ⟨hbnot, hbs⟩ := hold
    cases hfind : findKey b.key new with
    | none =>
      have hnone := findKey_eq_none hfind
      simp only [changesFromModified, hfind, List.map_cons, List.nodup_cons]
      refine ⟨?_, ih new hbs hnew⟩
      rw [List.mem_map]
      rintro ⟨ch, hch, hkey⟩
      rcases (mem_changesFromModified bs new hbs hnew ch).mp hch with
        ⟨_, hon, _, _, _, _⟩ | ⟨_, hon, _⟩ | ⟨_, hon, _⟩
      · exact hnone ch.«on» hon hkey
      · exact hbnot (hkey ▸ List.mem_map_of_mem Crate.key hon)
      · exact hnone ch.«on» hon hkey
    | some a =>
      obtain ⟨ha, hak⟩ := findKey_eq_some hfind
      have hnewE := keys_nodup_eraseKey hnew b.key
      by_cases hck : b.checksum = a.checksum
      · simp only [changesFromModified, hfind]
        rw [if_neg (not_not_intro hck)]
        exact ih _ hbs hnewE
      · simp only [changesFromModified, hfind]
        rw [if_pos hck, List.map_cons, List.nodup_cons]
        refine ⟨?_, ih _ hbs hnewE⟩
        rw [List.mem_map]
        rintro ⟨ch, hch, hkey⟩
        have hkey' : ch.«on».key = a.key := hkey
        have hkb : ch.«on».key = b.key := hkey'.trans hak
        rcases (mem_changesFromModified bs (eraseKey b.key new) hbs hnewE
            ch).mp hch with ⟨_, hon, _, _, _, _⟩ | ⟨_, hon, _⟩ | ⟨_, hon, _⟩
        · exact ((mem_eraseKey hnew).mp hon).2 hkb
        · refine hbnot ?_
          rw [← hkb]
          exact List.mem_map_of_mem Crate.key hon
        · exact ((mem_eraseKey hnew).mp hon).2 hkb

/-- C2: for a `Modified` file delta whose old and new blobs both parse (the
parsed packages given as key-unique crate lists), the emitted change set is
exactly the claim's table: membership in the output is equivalent to being a
`Modified` change with the new crate for a key present in both packages with
differing checksums, a `Removed` change with the old crate for a key present
only in the old package, or an `Added` change with the new crate for a key
present only in the new package — in particular no change is emitted for a
common key with equal checksums — and the output carries at most one change
per key. -/
theorem modified_delta_changes_exact (old new : List Crate)
    (hold : (old.map Crate.key).Nodup) (hnew : (new.map Crate.key).Nodup) :
    (∀ ch : Change,
        ch ∈ changesFromModified old new ↔ modifiedSpec old new ch) ∧
      ((changesFromModified old new).map (fun ch => ch.«on».key)).Nodup :=
  ⟨mem_changesFromModified old new hold hnew,
    keys_nodup_changesFromModified old new hold hnew⟩

/-- Witness for C2 on concrete packages: old crates a, b, c and new crates
a (different checksum), b (same checksum), d. -/
theorem modified_delta_changes_exact_witness :
    (∀ ch : Change,
        ch ∈ changesFromModified
            [⟨"a", "1", ⟨[0]⟩⟩, ⟨"b", "1", ⟨[1]⟩⟩, ⟨"c", "1", ⟨[2]⟩⟩]
            [⟨"a", "1", ⟨[9]⟩⟩, ⟨"b", "1", ⟨[1]⟩⟩, ⟨"d", "1", ⟨[3]⟩⟩] ↔
          modifiedSpec
            [⟨"a", "1", ⟨[0]⟩⟩, ⟨"b", "1", ⟨[1]⟩⟩, ⟨"c", "1", ⟨[2]⟩⟩]
            [⟨"a", "1", ⟨[9]⟩⟩, ⟨"b", "1", ⟨[1]⟩⟩, ⟨"d", "1", ⟨[3]⟩⟩] ch) ∧
      ((changesFromModified
            [⟨"a", "1", ⟨[0]⟩⟩, ⟨"b", "1", ⟨[1]⟩⟩, ⟨"c", "1", ⟨[2]⟩⟩]
            [⟨"a", "1", ⟨[9]⟩⟩, ⟨"b", "1", ⟨[1]⟩⟩, ⟨"d", "1", ⟨[3]⟩⟩]).map
          (fun ch => ch.«on».key)).Nodup :=
  modified_delta_changes_exact _ _ (by decide) (by decide)

/-- C3 (code bug): the `config.json` delta is not filtered out.  The delta's
path is relative to the repository root, but `exclude` is the absolute path
`<workdir>/config.json`, so the two are never equal for a non-empty working
directory and a modification of `config.json` reaches the diff engine (where
parsing it as a package fails). -/
theorem config_delta_not_filtered (workdir : List String)
    (h : workdir ≠ []) :
    deltaKept workdir
      ⟨some [configurationFilename], some [configurationFilename]⟩ = true := by
  refine decide_eq_true ?_
  intro heq
  apply h
  have hlen := congrArg List.length heq
  simp only [excludePath, List.length_append, List.length_singleton] at hlen
  exact List.length_eq_zero.mp (by omega)

/-- Witness for C3 at the working directory `/cache/index`. -/
theorem config_delta_not_filtered_witness :
    deltaKept ["/", "cache", "index"]
      ⟨some [configurationFilename], some [configurationFilename]⟩ = true :=
  config_delta_not_filtered ["/", "cache", "index"] (by decide)

theorem pruneGoFuel_ne_traversal (stop : List String) :
    ∀ (fuel : Nat) (start : List String) (fs : Fs),
      pruneGoFuel stop fuel start fs ≠ .error .TraversalIsImpossible := by
  intro fuel
  induction fuel with
  | zero => intro start fs h; exact Except.noConfusion h
  | succ fuel ih =>
    intro start fs
    rw [pruneGoFuel]
    split
    · exact fun h => Except.noConfusion h
    · split
      · exact ih start.dropLast _
      · intro h
        exact PruneDirectoriesError.noConfusion (Except.error.inj h)

theorem prefix_dropLast {α : Type} {stop start : List α}
    (h : stop <+: start) (hne : start ≠ stop) : stop <+: start.dropLast := by
  obtain ⟨t, rfl⟩ := h
  have ht : t ≠ [] := by
    intro h0
    rw [h0, List.append_nil] at hne
    exact hne rfl
  rw [List.dropLast_append_of_ne_nil stop ht]
  exact ⟨t.dropLast, rfl⟩

theorem ne_nil_of_proper_prefix {α : Type} {stop start : List α}
    (h : stop <+: start) (hne : start ≠ stop) : start ≠ [] := by
  intro h0
  rw [h0] at h
  rw [h0, List.prefix_nil.mp h] at hne
  exact hne rfl

theorem not_prefix_dropLast {α : Type} {start : List α} (h : start ≠ []) :
    ¬ start <+: start.dropLast := by
  intro hp
  have hlen := hp.length_le
  rw [List.length_dropLast] at hlen
  have : 0 < start.length := List.length_pos.mpr h
  omega

theorem isEmptyDir_anti {fs fs' : Fs}
    (hd : ∀ p, p ∈ fs'.dirs → p ∈ fs.dirs)
    (hf : ∀ p, p ∈ fs'.files → p ∈ fs.files)
    {d : List String} (h : fs.isEmptyDir d = true) :
    fs'.isEmptyDir d = true := by
  simp only [Fs.isEmptyDir, Bool.and_eq_true, List.all_eq_true] at h ⊢
  exact ⟨fun p hp => h.1 p (hd p hp), fun p hp => h.2 p (hf p hp)⟩

theorem not_child_of_empty {fs : Fs} {d p : List String}
    (h : fs.isEmptyDir d = true) (hp : p ∈ fs.dirs ∨ p ∈ fs.files) :
    isDirectChild d p = false := by
  simp only [Fs.isEmptyDir, Bool.and_eq_true, List.all_eq_true] at h
  rcases hp with hp | hp
  · simpa using h.1 p hp
  · simpa using h.2 p hp

theorem exists_child_of_not_empty {fs : Fs} {d : List String}
    (h : ¬ fs.isEmptyDir d = true) :
    (∃ p ∈ fs.dirs, isDirectChild d p = true) ∨
      (∃ p ∈ fs.files, isDirectChild d p = true) := by
  by_contra hc
  push_neg at hc
  apply h
  simp only [Fs.isEmptyDir, Bool.and_eq_true, List.all_eq_true]
  constructor
  · intro p hp
    simpa using hc.1 p hp
  · intro p hp
    simpa using hc.2 p hp

theorem isDirectChild_length {d p : List String}
    (h : isDirectChild d p = true) : p.length = d.length + 1 := by
  simp only [isDirectChild, Bool.and_eq_true, decide_eq_true_eq] at h
  exact h.1

theorem pruneGoFuel_mono (stop : List String) :
    ∀ (fuel : Nat) (start : List String) (fs fs' : Fs),
      pruneGoFuel stop fuel start fs = .ok fs' →
      fs'.files = fs.files ∧ ∀ d, d ∈ fs'.dirs → d ∈ fs.dirs := by
  intro fuel
  induction fuel with
  | zero =>
    intro start fs fs' h
    rw [pruneGoFuel] at h
    obtain rfl := Except.ok.inj h
    exact ⟨rfl, fun d hd => hd⟩
  | succ fuel ih =>
    intro start fs fs' h
    rw [pruneGoFuel] at h
    split at h
    · obtain rfl := Except.ok.inj h
      exact ⟨rfl, fun d hd => hd⟩
    · split at h
      · obtain ⟨hf, hd⟩ := ih start.dropLast _ fs' h
        constructor
        · rw [hf]
          split <;> rfl
        · intro d hd'
          have hmem := hd d hd'
          revert hmem
          split
          · exact fun h' => List.mem_of_mem_filter h'
          · exact fun h' => h'
      · exact absurd h (by simp)

theorem pruneGoFuel_removed_chain (stop : List String) :
    ∀ (fuel : Nat) (start : List String) (fs fs' : Fs),
      stop <+: start →
      pruneGoFuel stop fuel start fs = .ok fs' →
      ∀ d, d ∈ fs.dirs → d ∉ fs'.dirs →
        stop <+: d ∧ d <+: start ∧ d ≠ stop := by
  intro fuel
  induction fuel with
  | zero =>
    intro start fs fs' _ h d hd hnd
    rw [pruneGoFuel] at h
    obtain rfl := Except.ok.inj h
    exact absurd hd hnd
  | succ fuel ih =>
    intro start fs fs' hpre h d hd hnd
    rw [pruneGoFuel] at h
    split at h
    · obtain rfl := Except.ok.inj h
      exact absurd hd hnd
    · rename_i hne
      split at h
      · by_cases hds : d = start
        · subst hds
          exact ⟨hpre, List.prefix_rfl, fun hc => hne (hc ▸ rfl)⟩
        · have hd₁ :
              d ∈ (if fs.isEmptyDir start then fs.removeDir start
                else fs).dirs := by
            split
            · exact List.mem_filter.mpr ⟨hd, decide_eq_true hds⟩
            · exact hd
          obtain ⟨h1, h2, h3⟩ :=
            ih start.dropLast _ fs' (prefix_dropLast hpre hne) h d hd₁ hnd
          exact ⟨h1, h2.trans (dropLast_prefix_self start), h3⟩
      · exact absurd h (by simp)

theorem pruneGoFuel_removed_iff (stop : List String) :
    ∀ (fuel : Nat) (start : List String) (fs fs' : Fs),
      stop <+: start → start.length < fuel →
      pruneGoFuel stop fuel start fs = .ok fs' →
      ∀ d, d ∈ fs.dirs → stop <+: d → d <+: start → d ≠ stop →
        (d ∉ fs'.dirs ↔ fs'.isEmptyDir d = true) := by
  intro fuel
  induction fuel with
  | zero =>
    intro start fs fs' _ hlen
    exact absurd hlen (Nat.not_lt_zero _)
  | succ fuel ih =>
    intro start fs fs' hpre hlen h d hd hsd hds hdstop
    rw [pruneGoFuel] at h
    split at h
    · rename_i heq
      subst heq
      exact absurd
        (hds.eq_of_length (Nat.le_antisymm hds.length_le hsd.length_le))
        hdstop
    · rename_i hne
      split at h
      · rename_i hmem
        have hpre' : stop <+: start.dropLast := prefix_dropLast hpre hne
        have hnnil : start ≠ [] := ne_nil_of_proper_prefix hpre hne
        have hlen' : start.dropLast.length < fuel := by
          rw [List.length_dropLast]
          have : 0 < start.length := List.length_pos.mpr hnnil
          omega
        by_cases hdstart : d = start
        · subst hdstart
          by_cases hemp : fs.isEmptyDir d = true
          · rw [if_pos hemp] at h
            obtain ⟨hfiles, hdirs⟩ := pruneGoFuel_mono stop fuel d.dropLast _ fs' h
            have hout : d ∉ fs'.dirs := by
              intro hdin
              have hmem' := List.mem_filter.mp (hdirs d hdin)
              simp at hmem'
            refine ⟨fun _ => ?_, fun _ => hout⟩
            refine isEmptyDir_anti (fun p hp => List.mem_of_mem_filter (hdirs p hp))
              (fun p hp => ?_) hemp
            rw [hfiles] at hp
            exact hp
          · rw [if_neg hemp] at h
            have hdin : d ∈ fs'.dirs := by
              by_contra hnd
              obtain ⟨_, hpref, _⟩ :=
                pruneGoFuel_removed_chain stop fuel d.dropLast fs fs' hpre' h
                  d hd hnd
              exact not_prefix_dropLast hnnil hpref
            refine ⟨fun hnd => absurd hdin hnd, fun hempty' => ?_⟩
            exfalso
            obtain ⟨hfiles, hdirs⟩ := pruneGoFuel_mono stop fuel d.dropLast fs fs' h
            rcases exists_child_of_not_empty hemp with ⟨x, hx, hchild⟩ |
              ⟨x, hx, hchild⟩
            · have hx' : x ∈ fs'.dirs := by
                by_contra hnx
                obtain ⟨_, hpref, _⟩ :=
                  pruneGoFuel_removed_chain stop fuel d.dropLast fs fs' hpre' h
                    x hx hnx
                have h1 := hpref.length_le
                have h2 := isDirectChild_length hchild
                rw [List.length_dropLast] at h1
                omega
              have := not_child_of_empty hempty' (Or.inl hx')
              rw [hchild] at this
              exact Bool.noConfusion this
            · have hx' : x ∈ fs'.files := by
                rw [hfiles]
                exact hx
              have := not_child_of_empty hempty' (Or.inr hx')
              rw [hchild] at this
              exact Bool.noConfusion this
        · have hd₁ :
              d ∈ (if fs.isEmptyDir start then fs.removeDir start
                else fs).dirs := by
            split
            · exact List.mem_filter.mpr ⟨hd, decide_eq_true hdstart⟩
            · exact hd
          have hds' : d <+: start.dropLast :=
            prefix_dropLast hds (Ne.symm hdstart)
          exact ih start.dropLast _ fs' hpre' hlen' h d hd₁ hsd hds' hdstop
      · exact absurd h (by simp)

/-- C8: `prune_directories(from, until)` fails with `TraversalIsImpossible`
exactly when `from` does not begin with `until` (descendant-or-self, as
`Path::starts_with` decides it); no other run produces that error.  On
success no file is touched, only directories strictly between `until`
(exclusive, so `until` is never removed) and `from` (inclusive) on the upward
path are removed, and such a directory ends up removed precisely when it has
no entry left in the resulting state — the bottom-up visit order makes
"empty when visited" and "empty in the result" coincide. -/
theorem prune_directories_characterisation (fs : Fs)
    (start stop : List String) :
    (prune_directories fs start stop = .error .TraversalIsImpossible ↔
       ¬ stop <+: start) ∧
    (∀ fs', prune_directories fs start stop = .ok fs' →
      fs'.files = fs.files ∧
      (∀ d, d ∈ fs'.dirs → d ∈ fs.dirs) ∧
      (∀ d, d ∈ fs.dirs → d ∉ fs'.dirs →
         stop <+: d ∧ d <+: start ∧ d ≠ stop) ∧
      (stop ∈ fs.dirs → stop ∈ fs'.dirs) ∧
      (∀ d, d ∈ fs.dirs → stop <+: d → d <+: start → d ≠ stop →
         (d ∉ fs'.dirs ↔ fs'.isEmptyDir d = true))) := by
  constructor
  · rw [prune_directories]
    split
    · rename_i hp
      constructor
      · intro habs
        exact absurd habs (pruneGoFuel_ne_traversal stop _ start fs)
      · intro hnp
        exact absurd (isPrefixOf_eq_true_iff.mp hp) hnp
    · rename_i hp
      constructor
      · intro _
        exact fun hpre => hp (isPrefixOf_eq_true_iff.mpr hpre)
      · intro _
        rfl
  · intro fs' h
    rw [prune_directories] at h
    split at h
    · rename_i hp
      have hpre := isPrefixOf_eq_true_iff.mp hp
      obtain ⟨hf, hdirs⟩ :=
        pruneGoFuel_mono stop (start.length + 1) start fs fs' h
      refine ⟨hf, hdirs,
        pruneGoFuel_removed_chain stop _ start fs fs' hpre h, ?_,
        pruneGoFuel_removed_iff stop _ start fs fs' hpre (by omega) h⟩
      intro hsmem
      by_contra hns
      obtain ⟨_, _, hne⟩ :=
        pruneGoFuel_removed_chain stop _ start fs fs' hpre h stop hsmem hns
      exact hne rfl
    · exact absurd h (by simp)

/-- Witness for C8: pruning upward from `c/crates/a/1` to the cache root `c`
removes the three empty directories and keeps the root. -/
theorem prune_directories_characterisation_witness :
    pruneWitnessFsAfter.files = pruneWitnessFs.files ∧
    (∀ d, d ∈ pruneWitnessFsAfter.dirs → d ∈ pruneWitnessFs.dirs) ∧
    (∀ d, d ∈ pruneWitnessFs.dirs → d ∉ pruneWitnessFsAfter.dirs →
       ["c"] <+: d ∧ d <+: ["c", "crates", "a", "1"] ∧ d ≠ ["c"]) ∧
    (["c"] ∈ pruneWitnessFs.dirs → ["c"] ∈ pruneWitnessFsAfter.dirs) ∧
    (∀ d, d ∈ pruneWitnessFs.dirs → ["c"] <+: d →
       d <+: ["c", "crates", "a", "1"] → d ≠ ["c"] →
       (d ∉ pruneWitnessFsAfter.dirs ↔
          pruneWitnessFsAfter.isEmptyDir d = true)) :=
  (prune_directories_characterisation pruneWitnessFs
      ["c", "crates", "a", "1"] ["c"]).2 pruneWitnessFsAfter (by rfl)

/-- C1: the local index pointer is advanced by `PendingUpdate::commit` only
after every change in the plan has been applied successfully — the run ends
at `(none, target, _)` exactly when applying the changes produced no error
and the commit itself succeeded; whenever applying any change fails with a
non-recoverable error, `update` returns that error, the pointer stays at
`head` (commit is never reached), and the file-system state is exactly what
the changes applied so far produced (no rollback). -/
theorem update_commits_only_after_success (env : EffectEnv)
    (cachePath : List String) (changes : List Change) (head target : Nat)
    (fs : Fs) (hne : head ≠ target) :
    (updateRun env cachePath changes head target fs
        = (none, target, (applyChanges env cachePath changes fs).1) ↔
      (applyChanges env cachePath changes fs).2 = none ∧
        env.commitOk = true) ∧
    ((updateRun env cachePath changes head target fs).2.1 = target →
      (applyChanges env cachePath changes fs).2 = none) ∧
    (∀ e, (applyChanges env cachePath changes fs).2 = some e →
      updateRun env cachePath changes head target fs
        = (some e, head, (applyChanges env cachePath changes fs).1)) := by
  rcases happly : applyChanges env cachePath changes fs with ⟨fs', r⟩
  cases r with
  | none =>
    cases hc : env.commitOk with
    | true => simp [updateRun, happly, hc]
    | false => simp [updateRun, happly, hc, hne]
  | some e => simp [updateRun, happly, hne]

/-- Witness for C1: with one `Added` change whose download fails fatally,
`update` returns the `CrateDownloadError` and leaves the pointer at 0. -/
theorem update_commits_only_after_success_witness :
    updateRun updateWitnessEnv ["c"] [⟨⟨"a", "1", ⟨[]⟩⟩, .Added⟩] 0 1
        ⟨[["c"]], []⟩
      = (some (.CrateDownload ⟨.Transport, "a", "1"⟩), 0,
          (applyChanges updateWitnessEnv ["c"] [⟨⟨"a", "1", ⟨[]⟩⟩, .Added⟩]
              ⟨[["c"]], []⟩).1) :=
  (update_commits_only_after_success updateWitnessEnv ["c"]
      [⟨⟨"a", "1", ⟨[]⟩⟩, .Added⟩] 0 1 ⟨[["c"]], []⟩ (by decide)).2.2
    (.CrateDownload ⟨.Transport, "a", "1"⟩) (by rfl)

/-- C4: in both `Cache::refresh` and `Cache::update`, a per-crate download
failure is recoverable exactly when its kind is `ChecksumMismatch` or
`Http`; a recoverable failure is skipped — the per-crate step succeeds and
changes nothing — while every other kind aborts the operation with a
`CrateDownloadError` carrying the crate's name and version; a run in which
every download outcome is success or recoverable never fails `refresh`. -/
theorem recoverable_download_errors_skipped (env : EffectEnv)
    (cachePath : List String) (fs : Fs) (c : Crate) (e : DownloadError)
    (hloc : env.locateOk c = true) (hrun : env.runResult c = some e) :
    (e.isRecoverable = true ↔
      (∃ url, e = .ChecksumMismatch url) ∨
        ∃ status url, e = .Http status url) ∧
    (e.isRecoverable = true →
      refreshCrate env c = none ∧
        downloadStep env cachePath fs c = (fs, none)) ∧
    (e.isRecoverable = false →
      refreshCrate env c = some (.CrateDownload ⟨e, c.name, c.version⟩) ∧
        downloadStep env cachePath fs c
          = (fs, some (.CrateDownload ⟨e, c.name, c.version⟩))) ∧
    (∀ crates : List Crate,
      (∀ x ∈ crates, env.locateOk x = true ∧
         ∀ e', env.runResult x = some e' → e'.isRecoverable = true) →
      refreshCrates env crates = none) := by
  refine ⟨?_, ?_, ?_, ?_⟩
  · cases e <;> simp [DownloadError.isRecoverable]
  · intro hrec
    constructor
    · simp [refreshCrate, hloc, hrun, hrec]
    · simp [downloadStep, hloc, hrun, hrec]
  · intro hrec
    constructor
    · simp [refreshCrate, hloc, hrun, hrec]
    · simp [downloadStep, hloc, hrun, hrec]
  · intro crates hall
    induction crates with
    | nil => rfl
    | cons x rest ih =>
      have hx := hall x (List.mem_cons_self x rest)
      have hstep : refreshCrate env x = none := by
        rw [refreshCrate, if_pos hx.1]
        cases hr : env.runResult x with
        | none => rfl
        | some e' => simp [hx.2 e' hr]
      rw [refreshCrates, hstep]
      exact ih (fun y hy => hall y (List.mem_cons_of_mem x hy))

/-- Witness for C4: an HTTP failure is skipped by the per-crate step of both
operations. -/
theorem recoverable_download_errors_skipped_witness :
    refreshCrate refreshWitnessEnv ⟨"a", "1", ⟨[]⟩⟩ = none ∧
      downloadStep refreshWitnessEnv ["c"] ⟨[["c"]], []⟩ ⟨"a", "1", ⟨[]⟩⟩
        = (⟨[["c"]], []⟩, none) :=
  (recoverable_download_errors_skipped refreshWitnessEnv ["c"]
      ⟨[["c"]], []⟩ ⟨"a", "1", ⟨[]⟩⟩ (.Http 403 "u") rfl rfl).2.1 rfl

/-- C7: during `update`, a `Modified` or `Removed` change whose artifact
file is already absent succeeds past the removal step — a `NotFound`
metadata probe is treated as success, after which `Modified` proceeds to the
download and `Removed` proceeds to the directory prune — while a metadata
error of any other kind fails the change with `Io`. -/
theorem absent_artifact_removal_tolerated (env : EffectEnv)
    (cachePath : List String) (fs : Fs) (c : Crate) (k : IoErrorKind)
    (hstat : env.statResult c = some k) :
    (k = .notFound →
      removeArtifact env cachePath fs c = (fs, none) ∧
        applyChange env cachePath fs ⟨c, .Modified⟩
          = downloadStep env cachePath fs c ∧
        applyChange env cachePath fs ⟨c, .Removed⟩
          = (match prune_directories fs
                (locate_crate cachePath c).dropLast cachePath with
             | .ok fs₂ => (fs₂, none)
             | .error e => (fs, some (.PruneDirectories e)))) ∧
    (k ≠ .notFound →
      removeArtifact env cachePath fs c = (fs, some (.Io k)) ∧
        applyChange env cachePath fs ⟨c, .Modified⟩ = (fs, some (.Io k)) ∧
        applyChange env cachePath fs ⟨c, .Removed⟩ = (fs, some (.Io k))) := by
  constructor
  · rintro rfl
    have hrem : removeArtifact env cachePath fs c = (fs, none) := by
      simp [removeArtifact, hstat]
    refine ⟨hrem, ?_, ?_⟩
    · simp only [applyChange, hrem]
    · simp only [applyChange, hrem]
  · intro hk
    have hrem : removeArtifact env cachePath fs c = (fs, some (.Io k)) := by
      simp [removeArtifact, hstat, hk]
    refine ⟨hrem, ?_, ?_⟩
    · simp only [applyChange, hrem]
    · simp only [applyChange, hrem]

/-- Witness for C7: with the artifact absent, the removal step succeeds and
both change kinds proceed. -/
theorem absent_artifact_removal_tolerated_witness :
    removeArtifact absentWitnessEnv ["c"] ⟨[["c"]], []⟩ ⟨"a", "1", ⟨[]⟩⟩
        = (⟨[["c"]], []⟩, none) ∧
      applyChange absentWitnessEnv ["c"] ⟨[["c"]], []⟩
          ⟨⟨"a", "1", ⟨[]⟩⟩, .Modified⟩
        = downloadStep absentWitnessEnv ["c"] ⟨[["c"]], []⟩
            ⟨"a", "1", ⟨[]⟩⟩ ∧
      applyChange absentWitnessEnv ["c"] ⟨[["c"]], []⟩
          ⟨⟨"a", "1", ⟨[]⟩⟩, .Removed⟩
        = (match prune_directories ⟨[["c"]], []⟩
              (locate_crate ["c"] ⟨"a", "1", ⟨[]⟩⟩).dropLast ["c"] with
           | .ok fs₂ => (fs₂, none)
           | .error e => (⟨[["c"]], []⟩, some (.PruneDirectories e))) :=
  (absent_artifact_removal_tolerated absentWitnessEnv ["c"] ⟨[["c"]], []⟩
      ⟨"a", "1", ⟨[]⟩⟩ .notFound rfl).1 rfl

end Crateful
